import Mathlib

/-!
Shallow embedding of the scheduling core of the random-speaker program
(src/main.rs).

Time model: a chrono NaiveDateTime is represented as an integer number of
nanoseconds (chrono's internal resolution) counted from an epoch chosen so
that day 0 is a Monday; chrono's Weekday values are represented as
num_days_from_monday (Monday = 0 .. Sunday = 6).  A NaiveTime is the
number of nanoseconds since midnight, always in [0, nsPerDay).

The two day-stepping while-loops of find_last_valid_time /
find_next_valid_time and the gap-elision while-loop of schedule_new_play
have no bound in the source; they are modelled with fuel returning Option,
where a result of none means the Rust loop never returns.  For the
day-stepping loops a fuel of 7 is exact: the weekday of a date is periodic
with period 7, so if no allowed weekday is found within 7 steps the Rust
loop runs forever (lemma stepBackDays_seven_none_forever below).
-/

namespace RandomSpeaker

/-- Nanoseconds in one calendar day (chrono::Duration::days(1) on naive times). -/
def nsPerDay : Int := 86400000000000

/-- NaiveDateTime::date as a day number: floor division by the day length
(the divisor is positive, so Euclidean division is floor division). -/
def dateOf (t : Int) : Int := t / nsPerDay

/-- NaiveDateTime::time as nanoseconds since midnight, in [0, nsPerDay). -/
def timeOfDay (t : Int) : Int := t % nsPerDay

/-- Weekday of a day number (num_days_from_monday; day 0 is a Monday). -/
def weekdayOfDate (d : Int) : Int := d % 7

/-- NaiveDateTime::weekday. -/
def weekdayOf (t : Int) : Int := weekdayOfDate (dateOf t)

/-- NaiveDateTime::new(date, time): recombine a day number and a time of day. -/
def mkDateTime (d tod : Int) : Int := d * nsPerDay + tod

/-- The [schedule] table of config.toml: allowed weekdays and the
start/end times of day of the window. -/
structure Schedule where
  weekdays : List Int
  start_time : Int
  end_time : Int
deriving DecidableEq

/-- The whole config.toml: [general] lower_bound/upper_bound (seconds,
usize) and the [schedule] table. -/
structure BaseConfig where
  lower_bound : Nat
  upper_bound : Nat
  schedule : Schedule
deriving DecidableEq

/-- Context::is_time_valid: the weekday is allowed and the time of day lies
in start_time..=end_time (inclusive). -/
def is_time_valid (c : Schedule) (t : Int) : Bool :=
  c.weekdays.contains (weekdayOf t)
    && (decide (c.start_time ≤ timeOfDay t) && decide (timeOfDay t ≤ c.end_time))

/-- The while-loop of find_last_valid_time stepping back one day at a time
until the weekday is allowed.  none models the loop never returning. -/
def stepBackDays (c : Schedule) : Nat → Int → Option Int
  | 0, _ => none
  | fuel + 1, time =>
    if c.weekdays.contains (weekdayOf time) then some time
    else stepBackDays c fuel (time - nsPerDay)

/-- The while-loop of find_next_valid_time stepping forward one day at a
time until the weekday is allowed. -/
def stepForwardDays (c : Schedule) : Nat → Int → Option Int
  | 0, _ => none
  | fuel + 1, time =>
    if c.weekdays.contains (weekdayOf time) then some time
    else stepForwardDays c fuel (time + nsPerDay)

/-- Context::find_last_valid_time.  A fuel of 7 for the weekday search is
exact because weekdays repeat with period 7. -/
def find_last_valid_time (c : Schedule) (time : Int) : Option Int :=
  if is_time_valid c time then some time
  else
    let t1 := if timeOfDay time < c.start_time then time - nsPerDay else time
    match stepBackDays c 7 t1 with
    | some t2 => some (mkDateTime (dateOf t2) c.end_time)
    | none => none

/-- Context::find_next_valid_time. -/
def find_next_valid_time (c : Schedule) (time : Int) : Option Int :=
  if is_time_valid c time then some time
  else
    let t1 := if c.end_time < timeOfDay time then time + nsPerDay else time
    match stepForwardDays c 7 t1 with
    | some t2 => some (mkDateTime (dateOf t2) c.start_time)
    | none => none

/-- The gap-elision while-loop of schedule_new_play: while the candidate is
invalid, replace it by find_next_valid_time(candidate) plus the overshoot
past find_last_valid_time(candidate). -/
def gapElide (c : Schedule) : Nat → Int → Option Int
  | 0, _ => none
  | fuel + 1, t =>
    if is_time_valid c t then some t
    else
      match find_last_valid_time c t, find_next_valid_time c t with
      | some lastValid, some nextValid => gapElide c fuel (nextValid + (t - lastValid))
      | _, _ => none

/-- Context::schedule_new_play, with the random draw made explicit: offset
is the drawn duration in nanoseconds.  thread_rng().gen_range(lower as
f32..upper as f32) panics when the half-open range is empty, i.e. unless
lower_bound < upper_bound; std::fs::write("next-play", ..).unwrap() panics
when the write fails (writeOk = false).  none models a panic or a
never-returning loop. -/
def schedule_new_play (c : BaseConfig) (offset : Int) (fuel : Nat) (now : Int)
    (writeOk : Bool) : Option Int :=
  if c.lower_bound < c.upper_bound then
    match find_last_valid_time c.schedule now with
    | some anchor =>
      match gapElide c.schedule fuel (anchor + offset) with
      | some t => if writeOk then some t else none
      | none => none
    | none => none
  else none

/-- Outcome of reading and parsing config.toml at the start of wake:
the read itself can fail (unreadable), toml::from_str can fail
(malformed), or a config is produced. -/
inductive CfgRead where
  | unreadable : CfgRead
  | malformed : CfgRead
  | ok : BaseConfig → CfgRead
deriving DecidableEq

/-- Outcome of reading and parsing the next-play file: the try-block
yields an error (missing/unreadable/unparseable) or a timestamp. -/
inductive NpRead where
  | failed : NpRead
  | ok : Int → NpRead
deriving DecidableEq

/-- Observable effects of one wake pass: the in-memory config afterwards,
whether play_sound was invoked, the value written to the next-play file
(none = not written), and the new absolute sleep deadline (none = the
sleep was not reset). -/
structure WakeEffects where
  config : BaseConfig
  played : Bool
  persisted : Option Int
  sleepDeadline : Option Int
deriving DecidableEq

/-- Context::wake, with the environment made explicit: the config.toml
read outcome, the next-play read outcome, the current time, the random
draw, and whether the next-play write succeeds.  none models a panic (the
unwrap on the config read, or the unwrap on the next-play write) or a
never-returning search loop.  Note the dueness test of the source is
strict: diff < TimeDelta::zero(), i.e. nextPlay < now. -/
def wake (oldConfig : BaseConfig) (cfgRead : CfgRead) (npRead : NpRead)
    (now offset : Int) (fuel : Nat) (writeOk : Bool) : Option WakeEffects :=
  match cfgRead with
  | .unreadable => none
  | .malformed => some ⟨oldConfig, false, none, none⟩
  | .ok c =>
    match npRead with
    | .failed =>
      (schedule_new_play c offset fuel now writeOk).map
        (fun t => ⟨c, false, some t, some (max now t)⟩)
    | .ok nextPlay =>
      if nextPlay - now < 0 then
        (schedule_new_play c offset fuel now writeOk).map
          (fun t => ⟨c, is_time_valid c.schedule now, some t, some (max now t)⟩)
      else
        some ⟨c, false, none, some nextPlay⟩

/-! Arithmetic facts about the date/time-of-day decomposition. -/

lemma timeOfDay_bounds (t : Int) : 0 ≤ timeOfDay t ∧ timeOfDay t < nsPerDay := by
  simp only [timeOfDay, nsPerDay]; omega

lemma date_decompose (t : Int) : dateOf t * nsPerDay + timeOfDay t = t := by
  simp only [dateOf, timeOfDay, nsPerDay]; omega

lemma mk_decompose (d x : Int) (h0 : 0 ≤ x) (h1 : x < nsPerDay) :
    dateOf (mkDateTime d x) = d ∧ timeOfDay (mkDateTime d x) = x := by
  simp only [dateOf, timeOfDay, mkDateTime, nsPerDay] at *; omega

lemma dateOf_sub_days (t k : Int) : dateOf (t - k * nsPerDay) = dateOf t - k := by
  simp only [dateOf, nsPerDay]; omega

lemma dateOf_add_days (t k : Int) : dateOf (t + k * nsPerDay) = dateOf t + k := by
  simp only [dateOf, nsPerDay]; omega

lemma timeOfDay_sub_days (t k : Int) : timeOfDay (t - k * nsPerDay) = timeOfDay t := by
  simp only [timeOfDay, nsPerDay]; omega

lemma timeOfDay_add_days (t k : Int) : timeOfDay (t + k * nsPerDay) = timeOfDay t := by
  simp only [timeOfDay, nsPerDay]; omega

/-- is_time_valid unfolded into its three conjuncts. -/
lemma is_time_valid_iff (c : Schedule) (t : Int) :
    is_time_valid c t = true ↔
      weekdayOf t ∈ c.weekdays ∧
        c.start_time ≤ timeOfDay t ∧ timeOfDay t ≤ c.end_time := by
  simp [is_time_valid]

/-! Characterization of the day-stepping loops. -/

/-- Inversion: a successful backward day search returns the first day at
or before the start whose weekday is allowed (all earlier offsets were
rejected). -/
lemma stepBackDays_some (c : Schedule) :
    ∀ (fuel : Nat) (t r : Int), stepBackDays c fuel t = some r →
      ∃ k : Nat, k < fuel ∧ r = t - (k : Int) * nsPerDay ∧
        weekdayOf r ∈ c.weekdays ∧
        ∀ i : Nat, i < k → weekdayOf (t - (i : Int) * nsPerDay) ∉ c.weekdays := by
  intro fuel
  induction fuel with
  | zero => intro t r h; simp [stepBackDays] at h
  | succ n ih =>
    intro t r h
    by_cases hc : weekdayOf t ∈ c.weekdays
    · simp [stepBackDays, hc] at h
      subst h
      exact ⟨0, by omega, by simp, hc, fun i hi => absurd hi (by omega)⟩
    · simp [stepBackDays, hc] at h
      obtain ⟨k, hk, hr, hcr, hrej⟩ := ih (t - nsPerDay) r h
      subst hr
      refine ⟨k + 1, by omega, by push_cast; ring, hcr, ?_⟩
      intro i hi
      match i with
      | 0 => simpa using hc
      | j + 1 =>
        have hj := hrej j (by omega)
        have heq : t - nsPerDay - (j : Int) * nsPerDay
            = t - (((j + 1 : Nat) : Int)) * nsPerDay := by push_cast; ring
        rw [heq] at hj
        exact hj

/-- Existence: if some day within the fuel has an allowed weekday, the
backward search succeeds. -/
lemma stepBackDays_isSome (c : Schedule) :
    ∀ (fuel : Nat) (t : Int),
      (∃ k : Nat, k < fuel ∧ weekdayOf (t - (k : Int) * nsPerDay) ∈ c.weekdays) →
      (stepBackDays c fuel t).isSome := by
  intro fuel
  induction fuel with
  | zero => intro t ⟨k, hk, _⟩; omega
  | succ n ih =>
    intro t ⟨k, hk, hc⟩
    by_cases hc0 : weekdayOf t ∈ c.weekdays
    · simp [stepBackDays, hc0]
    · simp only [stepBackDays]
      rw [if_neg (by simpa using hc0)]
      match k with
      | 0 => exact absurd (by simpa using hc) hc0
      | j + 1 =>
        apply ih
        refine ⟨j, by omega, ?_⟩
        have heq : t - nsPerDay - (j : Int) * nsPerDay
            = t - (((j + 1 : Nat) : Int)) * nsPerDay := by push_cast; ring
        rw [heq]
        exact hc

/-- Inversion for the forward day search. -/
lemma stepForwardDays_some (c : Schedule) :
    ∀ (fuel : Nat) (t r : Int), stepForwardDays c fuel t = some r →
      ∃ k : Nat, k < fuel ∧ r = t + (k : Int) * nsPerDay ∧
        weekdayOf r ∈ c.weekdays ∧
        ∀ i : Nat, i < k → weekdayOf (t + (i : Int) * nsPerDay) ∉ c.weekdays := by
  intro fuel
  induction fuel with
  | zero => intro t r h; simp [stepForwardDays] at h
  | succ n ih =>
    intro t r h
    by_cases hc : weekdayOf t ∈ c.weekdays
    · simp [stepForwardDays, hc] at h
      subst h
      exact ⟨0, by omega, by simp, hc, fun i hi => absurd hi (by omega)⟩
    · simp [stepForwardDays, hc] at h
      obtain ⟨k, hk, hr, hcr, hrej⟩ := ih (t + nsPerDay) r h
      subst hr
      refine ⟨k + 1, by omega, by push_cast; ring, hcr, ?_⟩
      intro i hi
      match i with
      | 0 => simpa using hc
      | j + 1 =>
        have hj := hrej j (by omega)
        have heq : t + nsPerDay + (j : Int) * nsPerDay
            = t + (((j + 1 : Nat) : Int)) * nsPerDay := by push_cast; ring
        rw [heq] at hj
        exact hj

/-- Existence for the forward day search. -/
lemma stepForwardDays_isSome (c : Schedule) :
    ∀ (fuel : Nat) (t : Int),
      (∃ k : Nat, k < fuel ∧ weekdayOf (t + (k : Int) * nsPerDay) ∈ c.weekdays) →
      (stepForwardDays c fuel t).isSome := by
  intro fuel
  induction fuel with
  | zero => intro t ⟨k, hk, _⟩; omega
  | succ n ih =>
    intro t ⟨k, hk, hc⟩
    by_cases hc0 : weekdayOf t ∈ c.weekdays
    · simp [stepForwardDays, hc0]
    · simp only [stepForwardDays]
      rw [if_neg (by simpa using hc0)]
      match k with
      | 0 => exact absurd (by simpa using hc) hc0
      | j + 1 =>
        apply ih
        refine ⟨j, by omega, ?_⟩
        have heq : t + nsPerDay + (j : Int) * nsPerDay
            = t + (((j + 1 : Nat) : Int)) * nsPerDay := by push_cast; ring
        rw [heq]
        exact hc

/-- Any list holding a real weekday (in 0..6) is hit by stepping back at
most 6 days: weekdays are periodic with period 7. -/
lemma weekday_hit_back (c : Schedule)
    (hw : ∃ w ∈ c.weekdays, 0 ≤ w ∧ w < 7) (t : Int) :
    ∃ k : Nat, k < 7 ∧ weekdayOf (t - (k : Int) * nsPerDay) ∈ c.weekdays := by
  obtain ⟨w, hmem, hw0, hw7⟩ := hw
  refine ⟨((dateOf t - w) % 7).toNat, by omega, ?_⟩
  have hwd : weekdayOf (t - ((((dateOf t - w) % 7).toNat : Nat) : Int) * nsPerDay) = w := by
    simp only [weekdayOf, dateOf_sub_days, weekdayOfDate]
    omega
  rw [hwd]
  exact hmem

/-- Forward version of the weekday periodicity hit. -/
lemma weekday_hit_forward (c : Schedule)
    (hw : ∃ w ∈ c.weekdays, 0 ≤ w ∧ w < 7) (t : Int) :
    ∃ k : Nat, k < 7 ∧ weekdayOf (t + (k : Int) * nsPerDay) ∈ c.weekdays := by
  obtain ⟨w, hmem, hw0, hw7⟩ := hw
  refine ⟨((w - dateOf t) % 7).toNat, by omega, ?_⟩
  have hwd : weekdayOf (t + ((((w - dateOf t) % 7).toNat : Nat) : Int) * nsPerDay) = w := by
    simp only [weekdayOf, dateOf_add_days, weekdayOfDate]
    omega
  rw [hwd]
  exact hmem

/-- Faithfulness of the fuel of 7: if the backward search fails with 7
days of fuel, no amount of further stepping would ever succeed, i.e. the
Rust while-loop really never returns. -/
lemma stepBackDays_seven_none_forever (c : Schedule) (t : Int)
    (h : stepBackDays c 7 t = none) (k : Nat) :
    weekdayOf (t - (k : Int) * nsPerDay) ∉ c.weekdays := by
  have hall : ∀ j : Nat, j < 7 → weekdayOf (t - (j : Int) * nsPerDay) ∉ c.weekdays := by
    intro j hj hc
    have := stepBackDays_isSome c 7 t ⟨j, hj, hc⟩
    rw [h] at this
    simp at this
  have hper : weekdayOf (t - (k : Int) * nsPerDay)
      = weekdayOf (t - ((k % 7 : Nat) : Int) * nsPerDay) := by
    simp only [weekdayOf, dateOf_sub_days, weekdayOfDate]
    omega
  rw [hper]
  exact hall (k % 7) (by omega)

/-- With an empty weekday list the backward day search fails for every
fuel: the Rust loop would step back forever. -/
lemma stepBackDays_nil (st et : Int) (fuel : Nat) (t : Int) :
    stepBackDays ⟨[], st, et⟩ fuel t = none := by
  induction fuel generalizing t with
  | zero => rfl
  | succ n ih => simp [stepBackDays, ih]

/-! Properties of the two snap functions. -/

lemma flvt_eq_valid (c : Schedule) (t : Int) (h : is_time_valid c t = true) :
    find_last_valid_time c t = some t := by
  unfold find_last_valid_time
  rw [if_pos h]

lemma flvt_eq_invalid (c : Schedule) (t : Int) (h : is_time_valid c t = false) :
    find_last_valid_time c t
      = match stepBackDays c 7 (if timeOfDay t < c.start_time then t - nsPerDay else t) with
        | some t2 => some (mkDateTime (dateOf t2) c.end_time)
        | none => none := by
  unfold find_last_valid_time
  rw [if_neg (by simp [h])]

lemma fnvt_eq_valid (c : Schedule) (t : Int) (h : is_time_valid c t = true) :
    find_next_valid_time c t = some t := by
  unfold find_next_valid_time
  rw [if_pos h]

lemma fnvt_eq_invalid (c : Schedule) (t : Int) (h : is_time_valid c t = false) :
    find_next_valid_time c t
      = match stepForwardDays c 7 (if c.end_time < timeOfDay t then t + nsPerDay else t) with
        | some t2 => some (mkDateTime (dateOf t2) c.start_time)
        | none => none := by
  unfold find_next_valid_time
  rw [if_neg (by simp [h])]

/-- find_last_valid_time always lands on a valid timestamp, for a window
with at least one real weekday and start_time ≤ end_time < one day. -/
lemma flvt_valid_result (c : Schedule)
    (hw : ∃ w ∈ c.weekdays, 0 ≤ w ∧ w < 7)
    (hse : c.start_time ≤ c.end_time) (h0 : 0 ≤ c.end_time) (hD : c.end_time < nsPerDay)
    (t : Int) :
    ∃ r, find_last_valid_time c t = some r ∧ is_time_valid c r = true := by
  by_cases hv : is_time_valid c t = true
  · exact ⟨t, flvt_eq_valid c t hv, hv⟩
  · rw [Bool.not_eq_true] at hv
    set t1 := if timeOfDay t < c.start_time then t - nsPerDay else t with ht1
    have hsome := stepBackDays_isSome c 7 t1 (weekday_hit_back c hw t1)
    obtain ⟨t2, hsb⟩ := Option.isSome_iff_exists.mp hsome
    obtain ⟨k, hk7, ht2, hmem2, hrej⟩ := stepBackDays_some c 7 t1 t2 hsb
    refine ⟨mkDateTime (dateOf t2) c.end_time, ?_, ?_⟩
    · rw [flvt_eq_invalid c t hv, ← ht1, hsb]
    · rw [is_time_valid_iff]
      obtain ⟨hdd, htt⟩ := mk_decompose (dateOf t2) c.end_time h0 hD
      refine ⟨?_, ?_, ?_⟩
      · simp only [weekdayOf, hdd]
        exact hmem2
      · rw [htt]; exact hse
      · rw [htt]

/-- find_next_valid_time always lands on a valid timestamp. -/
lemma fnvt_valid_result (c : Schedule)
    (hw : ∃ w ∈ c.weekdays, 0 ≤ w ∧ w < 7)
    (hse : c.start_time ≤ c.end_time) (h0 : 0 ≤ c.start_time) (hD : c.start_time < nsPerDay)
    (t : Int) :
    ∃ r, find_next_valid_time c t = some r ∧ is_time_valid c r = true := by
  by_cases hv : is_time_valid c t = true
  · exact ⟨t, fnvt_eq_valid c t hv, hv⟩
  · rw [Bool.not_eq_true] at hv
    set t1 := if c.end_time < timeOfDay t then t + nsPerDay else t with ht1
    have hsome := stepForwardDays_isSome c 7 t1 (weekday_hit_forward c hw t1)
    obtain ⟨t2, hsb⟩ := Option.isSome_iff_exists.mp hsome
    obtain ⟨k, hk7, ht2, hmem2, hrej⟩ := stepForwardDays_some c 7 t1 t2 hsb
    refine ⟨mkDateTime (dateOf t2) c.start_time, ?_, ?_⟩
    · rw [fnvt_eq_invalid c t hv, ← ht1, hsb]
    · rw [is_time_valid_iff]
      obtain ⟨hdd, htt⟩ := mk_decompose (dateOf t2) c.start_time h0 hD
      refine ⟨?_, ?_, ?_⟩
      · simp only [weekdayOf, hdd]
        exact hmem2
      · rw [htt]
      · rw [htt]; exact hse

/-- On an invalid input, find_last_valid_time moves strictly backwards. -/
lemma flvt_lt_of_invalid (c : Schedule) (t r : Int)
    (hD : c.end_time < nsPerDay)
    (hinv : is_time_valid c t = false)
    (h : find_last_valid_time c t = some r) : r < t := by
  rw [flvt_eq_invalid c t hinv] at h
  have hnv : ¬ (weekdayOf t ∈ c.weekdays ∧ c.start_time ≤ timeOfDay t
      ∧ timeOfDay t ≤ c.end_time) := by
    rw [← is_time_valid_iff, hinv]
    simp
  by_cases hts : timeOfDay t < c.start_time
  · rw [if_pos hts] at h
    cases hsb : stepBackDays c 7 (t - nsPerDay) with
    | none => rw [hsb] at h; exact absurd h (by simp)
    | some t2 =>
      rw [hsb] at h
      simp only [Option.some.injEq] at h
      obtain ⟨k, hk7, ht2, hmem2, hrej⟩ := stepBackDays_some c 7 _ t2 hsb
      subst ht2
      subst h
      rw [show t - nsPerDay - (k : Int) * nsPerDay = t - (1 + (k : Int)) * nsPerDay by ring,
        dateOf_sub_days]
      have hb := timeOfDay_bounds t
      have hd := date_decompose t
      simp only [mkDateTime, timeOfDay, nsPerDay] at *
      omega
  · rw [if_neg hts] at h
    cases hsb : stepBackDays c 7 t with
    | none => rw [hsb] at h; exact absurd h (by simp)
    | some t2 =>
      rw [hsb] at h
      simp only [Option.some.injEq] at h
      obtain ⟨k, hk7, ht2, hmem2, hrej⟩ := stepBackDays_some c 7 _ t2 hsb
      subst ht2
      subst h
      rw [dateOf_sub_days]
      rcases k with _ | k1
      · have hmem : weekdayOf t ∈ c.weekdays := by simpa using hmem2
        push_neg at hts
        have het : c.end_time < timeOfDay t := by
          by_contra hle
          push_neg at hle
          exact hnv ⟨hmem, hts, hle⟩
        have hb := timeOfDay_bounds t
        have hd := date_decompose t
        simp only [mkDateTime, timeOfDay, nsPerDay] at *
        omega
      · have hb := timeOfDay_bounds t
        have hd := date_decompose t
        simp only [mkDateTime, timeOfDay, nsPerDay] at *
        push_cast
        omega

/-- On an invalid input, find_next_valid_time moves strictly forwards. -/
lemma fnvt_gt_of_invalid (c : Schedule) (t r : Int)
    (h0 : 0 ≤ c.start_time)
    (hinv : is_time_valid c t = false)
    (h : find_next_valid_time c t = some r) : t < r := by
  rw [fnvt_eq_invalid c t hinv] at h
  have hnv : ¬ (weekdayOf t ∈ c.weekdays ∧ c.start_time ≤ timeOfDay t
      ∧ timeOfDay t ≤ c.end_time) := by
    rw [← is_time_valid_iff, hinv]
    simp
  by_cases hts : c.end_time < timeOfDay t
  · rw [if_pos hts] at h
    cases hsb : stepForwardDays c 7 (t + nsPerDay) with
    | none => rw [hsb] at h; exact absurd h (by simp)
    | some t2 =>
      rw [hsb] at h
      simp only [Option.some.injEq] at h
      obtain ⟨k, hk7, ht2, hmem2, hrej⟩ := stepForwardDays_some c 7 _ t2 hsb
      subst ht2
      subst h
      rw [show t + nsPerDay + (k : Int) * nsPerDay = t + (1 + (k : Int)) * nsPerDay by ring,
        dateOf_add_days]
      have hb := timeOfDay_bounds t
      have hd := date_decompose t
      simp only [mkDateTime, timeOfDay, nsPerDay] at *
      omega
  · rw [if_neg hts] at h
    cases hsb : stepForwardDays c 7 t with
    | none => rw [hsb] at h; exact absurd h (by simp)
    | some t2 =>
      rw [hsb] at h
      simp only [Option.some.injEq] at h
      obtain ⟨k, hk7, ht2, hmem2, hrej⟩ := stepForwardDays_some c 7 _ t2 hsb
      subst ht2
      subst h
      rw [dateOf_add_days]
      rcases k with _ | k1
      · have hmem : weekdayOf t ∈ c.weekdays := by simpa using hmem2
        push_neg at hts
        have hst : timeOfDay t < c.start_time := by
          by_contra hle
          push_neg at hle
          exact hnv ⟨hmem, hle, hts⟩
        have hb := timeOfDay_bounds t
        have hd := date_decompose t
        simp only [mkDateTime, timeOfDay, nsPerDay] at *
        omega
      · have hb := timeOfDay_bounds t
        have hd := date_decompose t
        simp only [mkDateTime, timeOfDay, nsPerDay] at *
        push_cast
        omega

/-- On an invalid input, find_next_valid_time lands on an allowed day at
exactly start_time. -/
lemma fnvt_shape (c : Schedule) (t r : Int)
    (h0 : 0 ≤ c.start_time) (hD : c.start_time < nsPerDay)
    (hinv : is_time_valid c t = false)
    (h : find_next_valid_time c t = some r) :
    timeOfDay r = c.start_time ∧ weekdayOf r ∈ c.weekdays := by
  rw [fnvt_eq_invalid c t hinv] at h
  cases hsb : stepForwardDays c 7 (if c.end_time < timeOfDay t then t + nsPerDay else t) with
  | none => rw [hsb] at h; exact absurd h (by simp)
  | some t2 =>
    rw [hsb] at h
    simp only [Option.some.injEq] at h
    obtain ⟨k, hk7, ht2, hmem2, hrej⟩ := stepForwardDays_some c 7 _ t2 hsb
    subst h
    obtain ⟨hdd, htt⟩ := mk_decompose (dateOf t2) c.start_time h0 hD
    refine ⟨htt, ?_⟩
    simp only [weekdayOf, hdd]
    exact hmem2

/-- Maximality: find_last_valid_time t is at or after every valid
timestamp that is at or before t. -/
lemma flvt_max (c : Schedule) (t v r : Int)
    (hval : is_time_valid c v = true) (hvt : v ≤ t)
    (h : find_last_valid_time c t = some r) : v ≤ r := by
  by_cases hv : is_time_valid c t = true
  · rw [flvt_eq_valid c t hv] at h
    simp only [Option.some.injEq] at h
    omega
  · rw [Bool.not_eq_true] at hv
    rw [flvt_eq_invalid c t hv] at h
    obtain ⟨hmemv, hsv, hev⟩ := (is_time_valid_iff c v).mp hval
    by_cases hts : timeOfDay t < c.start_time
    · rw [if_pos hts] at h
      cases hsb : stepBackDays c 7 (t - nsPerDay) with
      | none => rw [hsb] at h; exact absurd h (by simp)
      | some t2 =>
        rw [hsb] at h
        simp only [Option.some.injEq] at h
        obtain ⟨k, hk7, ht2, hmem2, hrej⟩ := stepBackDays_some c 7 _ t2 hsb
        subst ht2
        subst h
        by_contra hcon
        push_neg at hcon
        rw [show t - nsPerDay - (k : Int) * nsPerDay = t - (1 + (k : Int)) * nsPerDay by ring,
          dateOf_sub_days] at hcon
        have hup : dateOf v ≤ dateOf t - 1 := by
          have hd1 := date_decompose t
          have hd2 := date_decompose v
          have hb1 := timeOfDay_bounds t
          have hb2 := timeOfDay_bounds v
          simp only [nsPerDay] at hd1 hd2 hb1 hb2
          omega
        have hlow : dateOf t - 1 - (k : Int) < dateOf v := by
          have hd2 := date_decompose v
          have hb2 := timeOfDay_bounds v
          simp only [mkDateTime, nsPerDay] at hcon hd2 hb2
          omega
        obtain ⟨i, hieq, hik⟩ :
            ∃ i : Nat, (i : Int) = dateOf t - 1 - dateOf v ∧ i < k :=
          ⟨(dateOf t - 1 - dateOf v).toNat, by omega, by omega⟩
        have hwd : weekdayOf (t - nsPerDay - (i : Int) * nsPerDay) = weekdayOf v := by
          rw [show t - nsPerDay - (i : Int) * nsPerDay = t - (1 + (i : Int)) * nsPerDay by ring]
          simp only [weekdayOf, dateOf_sub_days, weekdayOfDate]
          omega
        exact hrej i hik (by rw [hwd]; exact hmemv)
    · rw [if_neg hts] at h
      cases hsb : stepBackDays c 7 t with
      | none => rw [hsb] at h; exact absurd h (by simp)
      | some t2 =>
        rw [hsb] at h
        simp only [Option.some.injEq] at h
        obtain ⟨k, hk7, ht2, hmem2, hrej⟩ := stepBackDays_some c 7 _ t2 hsb
        subst ht2
        subst h
        by_contra hcon
        push_neg at hcon
        rw [dateOf_sub_days] at hcon
        have hup : dateOf v ≤ dateOf t := by
          have hd1 := date_decompose t
          have hd2 := date_decompose v
          have hb1 := timeOfDay_bounds t
          have hb2 := timeOfDay_bounds v
          simp only [nsPerDay] at hd1 hd2 hb1 hb2
          omega
        have hlow : dateOf t - (k : Int) < dateOf v := by
          have hd2 := date_decompose v
          have hb2 := timeOfDay_bounds v
          simp only [mkDateTime, nsPerDay] at hcon hd2 hb2
          omega
        obtain ⟨i, hieq, hik⟩ :
            ∃ i : Nat, (i : Int) = dateOf t - dateOf v ∧ i < k :=
          ⟨(dateOf t - dateOf v).toNat, by omega, by omega⟩
        have hwd : weekdayOf (t - (i : Int) * nsPerDay) = weekdayOf v := by
          simp only [weekdayOf, dateOf_sub_days, weekdayOfDate]
          omega
        exact hrej i hik (by rw [hwd]; exact hmemv)

/-! The gap-elision loop. -/

/-- One unit of fuel suffices when the candidate is already valid. -/
lemma gapElide_succ_valid (c : Schedule) (fuel : Nat) (t : Int)
    (h : is_time_valid c t = true) : gapElide c (fuel + 1) t = some t := by
  simp [gapElide, h]

/-- One unfolding of the gap-elision loop on an invalid candidate. -/
lemma gapElide_succ_invalid (c : Schedule) (fuel : Nat) (t lv nv : Int)
    (h : is_time_valid c t = false)
    (hlv : find_last_valid_time c t = some lv)
    (hnv : find_next_valid_time c t = some nv) :
    gapElide c (fuel + 1) t = gapElide c fuel (nv + (t - lv)) := by
  simp only [gapElide]
  rw [if_neg (by simp [h]), hlv, hnv]

/-- Termination and exit condition of the gap-elision loop, for a window
with at least one real weekday and strictly positive length: from any
starting candidate some fuel makes the loop exit, and it exits on a valid
timestamp.  The strong induction is on an upper bound for the overshoot
t - find_last_valid_time(t): each iteration shrinks the overshoot by at
least the window length end_time - start_time > 0. -/
lemma gapElide_total (c : Schedule)
    (hw : ∃ w ∈ c.weekdays, 0 ≤ w ∧ w < 7)
    (h0 : 0 ≤ c.start_time) (hlt : c.start_time < c.end_time) (hD : c.end_time < nsPerDay) :
    ∀ (n : Nat) (t : Int),
      (∀ lv, find_last_valid_time c t = some lv → t - lv ≤ (n : Int)) →
      ∃ fuel r, gapElide c fuel t = some r ∧ is_time_valid c r = true := by
  intro n
  induction n using Nat.strong_induction_on with
  | _ n ih =>
    intro t hbound
    by_cases hv : is_time_valid c t = true
    · exact ⟨0 + 1, t, gapElide_succ_valid c 0 t hv, hv⟩
    · rw [Bool.not_eq_true] at hv
      obtain ⟨lv, hlv, hlvval⟩ := flvt_valid_result c hw (le_of_lt hlt) (by omega) hD t
      obtain ⟨nv, hnv, hnvval⟩ := fnvt_valid_result c hw (le_of_lt hlt) h0 (by omega) t
      have hdiffpos : 0 < t - lv := by
        have := flvt_lt_of_invalid c t lv hD hv hlv
        omega
      have hdiffn : t - lv ≤ (n : Int) := hbound lv hlv
      obtain ⟨hnvtod, hnvmem⟩ := fnvt_shape c t nv h0 (by omega) hv hnv
      have hnvdec := date_decompose nv
      set t2 := nv + (t - lv) with ht2
      have hstep : ∀ fuel : Nat, gapElide c (fuel + 1) t = gapElide c fuel t2 :=
        fun fuel => gapElide_succ_invalid c fuel t lv nv hv hlv hnv
      by_cases hv2 : is_time_valid c t2 = true
      · exact ⟨0 + 1 + 1, t2, by rw [hstep (0 + 1)]; exact gapElide_succ_valid c 0 t2 hv2, hv2⟩
      · rw [Bool.not_eq_true] at hv2
        -- were the overshoot at most the window length, t2 would be valid
        have hgap : c.end_time - c.start_time < t - lv := by
          by_contra hd
          push_neg at hd
          have h1 : dateOf t2 = dateOf nv ∧ timeOfDay t2 = c.start_time + (t - lv) := by
            have ha := ht2
            have hb := hnvdec
            have hc := hnvtod
            simp only [dateOf, timeOfDay, nsPerDay] at *
            omega
          have : is_time_valid c t2 = true := by
            rw [is_time_valid_iff]
            refine ⟨?_, ?_, ?_⟩
            · simp only [weekdayOf, h1.1]
              exact hnvmem
            · rw [h1.2]; omega
            · rw [h1.2]; omega
          rw [this] at hv2
          exact absurd hv2 (by simp)
        -- the end of the window of nv's day is valid and at or before t2
        have hvday : is_time_valid c (mkDateTime (dateOf nv) c.end_time) = true := by
          rw [is_time_valid_iff]
          obtain ⟨hdd, htt⟩ := mk_decompose (dateOf nv) c.end_time (by omega) hD
          refine ⟨?_, ?_, ?_⟩
          · simp only [weekdayOf, hdd]
            exact hnvmem
          · rw [htt]; omega
          · rw [htt]
        have hveq : mkDateTime (dateOf nv) c.end_time = nv + (c.end_time - c.start_time) := by
          have hb := hnvdec
          have hc := hnvtod
          simp only [mkDateTime, nsPerDay] at *
          omega
        have hvle : mkDateTime (dateOf nv) c.end_time ≤ t2 := by omega
        obtain ⟨lv2, hlv2, hlv2val⟩ := flvt_valid_result c hw (le_of_lt hlt) (by omega) hD t2
        have hmax := flvt_max c t2 (mkDateTime (dateOf nv) c.end_time) lv2 hvday hvle hlv2
        have hlt2 := flvt_lt_of_invalid c t2 lv2 hD hv2 hlv2
        have hmn : (t2 - lv2).toNat < n := by omega
        obtain ⟨fuel, r, hgr, hrval⟩ := ih (t2 - lv2).toNat hmn t2 (by
          intro lv0 hlv0
          rw [hlv2] at hlv0
          simp only [Option.some.injEq] at hlv0
          omega)
        exact ⟨fuel + 1, r, by rw [hstep fuel]; exact hgr, hrval⟩

/-! Divergence of the gap-elision loop on a zero-length window
(start_time = end_time): a candidate half a second past the window point
is mapped, each iteration, to a candidate half a second past the window
point one week later, so the loop never exits. -/

/-- One iteration of the gap-elision loop on the Monday-only zero-length
window maps an invariant candidate (half a second past Monday midnight)
to another invariant candidate. -/
lemma gapElide_zero_window_step (t : Int)
    (he : ∃ e : Int, e % 7 = 0 ∧ t = mkDateTime e 500000000) (fuel : Nat) :
    ∃ t2, gapElide ⟨[0], 0, 0⟩ (fuel + 1) t = gapElide ⟨[0], 0, 0⟩ fuel t2 ∧
      ∃ e2 : Int, e2 % 7 = 0 ∧ t2 = mkDateTime e2 500000000 := by
  obtain ⟨e, he7, rfl⟩ := he
  obtain ⟨hdd, htt⟩ := mk_decompose e 500000000 (by norm_num) (by norm_num [nsPerDay])
  have hv : is_time_valid ⟨[0], 0, 0⟩ (mkDateTime e 500000000) = false := by
    have hv' : ¬ is_time_valid ⟨[0], 0, 0⟩ (mkDateTime e 500000000) = true := by
      rw [is_time_valid_iff]
      rintro ⟨-, -, h2⟩
      rw [htt] at h2
      simp at h2
    simpa using hv'
  obtain ⟨lv, hlv, hlvval⟩ := flvt_valid_result ⟨[0], 0, 0⟩ (by decide) le_rfl le_rfl
    (by decide) (mkDateTime e 500000000)
  obtain ⟨nv, hnv, hnvval⟩ := fnvt_valid_result ⟨[0], 0, 0⟩ (by decide) le_rfl le_rfl
    (by decide) (mkDateTime e 500000000)
  obtain ⟨hlvm, hlv1, hlv2⟩ := (is_time_valid_iff _ lv).mp hlvval
  obtain ⟨hnvm, hnv1, hnv2⟩ := (is_time_valid_iff _ nv).mp hnvval
  simp only [List.mem_singleton, weekdayOf, weekdayOfDate] at hlvm hnvm
  simp only at hlv1 hlv2 hnv1 hnv2
  have hlvdec := date_decompose lv
  have hnvdec := date_decompose nv
  refine ⟨nv + (mkDateTime e 500000000 - lv),
    gapElide_succ_invalid ⟨[0], 0, 0⟩ fuel _ lv nv hv hlv hnv,
    dateOf nv + e - dateOf lv, ?_, ?_⟩
  · omega
  · simp only [mkDateTime, nsPerDay] at *
    omega

/-- The gap-elision loop on the Monday-only zero-length window never
terminates from an invariant candidate, whatever the fuel. -/
lemma gapElide_zero_window_none (fuel : Nat) :
    ∀ t : Int, (∃ e : Int, e % 7 = 0 ∧ t = mkDateTime e 500000000) →
      gapElide ⟨[0], 0, 0⟩ fuel t = none := by
  induction fuel with
  | zero => intro t _; rfl
  | succ n ih =>
    intro t he
    obtain ⟨t2, hstep, he2⟩ := gapElide_zero_window_step t he n
    rw [hstep]
    exact ih t2 he2

/-! Concrete fixtures used by the claims: the spec's example window,
Monday-Friday 08:00-20:00 (times of day in nanoseconds), and a config
with a non-empty offset range of [0, 200) seconds.  With day 0 a Monday,
day 4 is a Friday: 417599000000000 is Friday 19:59:59,
417540000000000 is Friday 19:59:00, and 417660000000000 is
Friday 20:01:00. -/

def mondayFridayWindow : Schedule := ⟨[0, 1, 2, 3, 4], 28800000000000, 72000000000000⟩

def exampleConfig : BaseConfig := ⟨0, 200, mondayFridayWindow⟩

/-! The claims. -/

/-- C1 (as stated, refuted): the claim quantifies over every window with
at least one allowed weekday and start_time ≤ end_time; with the
zero-length window Monday 00:00-00:00 and a drawn offset of half a second
(drawable from the range [0,1)), the gap-elision loop never exits for any
fuel, so schedule_new_play never returns a timestamp at all. -/
theorem C1_counterexample :
    ¬ ∃ (fuel : Nat) (r : Int),
        schedule_new_play ⟨0, 1, ⟨[0], 0, 0⟩⟩ 500000000 fuel 0 true = some r ∧
          is_time_valid ⟨[0], 0, 0⟩ r = true := by
  rintro ⟨fuel, r, heq, -⟩
  have hanchor : find_last_valid_time ⟨[0], 0, 0⟩ 0 = some 0 := by decide
  have hdiv : gapElide ⟨[0], 0, 0⟩ fuel 500000000 = none :=
    gapElide_zero_window_none fuel 500000000 ⟨0, by decide, by decide⟩
  norm_num [schedule_new_play, hanchor, hdiv] at heq
  exact Option.noConfusion heq

/-- C1 (amended): for every window with at least one allowed weekday and
strictly positive length (start_time < end_time, both inside one day),
and a non-empty offset range, schedule_new_play terminates for every
current time and every non-negative drawn offset, and the timestamp it
returns and persists satisfies is_time_valid. -/
theorem C1_schedule_returns_valid (c : BaseConfig)
    (hne : c.schedule.weekdays ≠ [])
    (hwr : ∀ w ∈ c.schedule.weekdays, 0 ≤ w ∧ w < 7)
    (h0 : 0 ≤ c.schedule.start_time)
    (hlt : c.schedule.start_time < c.schedule.end_time)
    (hD : c.schedule.end_time < nsPerDay)
    (hrange : c.lower_bound < c.upper_bound)
    (now offset : Int) (_hoff : 0 ≤ offset) :
    ∃ (fuel : Nat) (r : Int),
      schedule_new_play c offset fuel now true = some r ∧
        is_time_valid c.schedule r = true := by
  have hw : ∃ w ∈ c.schedule.weekdays, 0 ≤ w ∧ w < 7 := by
    obtain ⟨w, hwmem⟩ := List.exists_mem_of_ne_nil _ hne
    exact ⟨w, hwmem, hwr w hwmem⟩
  obtain ⟨anchor, hanchor, -⟩ :=
    flvt_valid_result c.schedule hw (le_of_lt hlt) (by omega) hD now
  obtain ⟨lv0, hlv0, -⟩ :=
    flvt_valid_result c.schedule hw (le_of_lt hlt) (by omega) hD (anchor + offset)
  obtain ⟨fuel, r, hg, hval⟩ := gapElide_total c.schedule hw h0 hlt hD
    (anchor + offset - lv0).toNat (anchor + offset) (by
      intro lv hlv
      rw [hlv0] at hlv
      simp only [Option.some.injEq] at hlv
      omega)
  refine ⟨fuel, r, ?_, hval⟩
  simp [schedule_new_play, hrange, hanchor, hg]

/-- C1 (witness): the amended theorem applied to the example window at
Friday 19:59:59 with a two-minute offset. -/
theorem C1_schedule_returns_valid_witness :
    ∃ (fuel : Nat) (r : Int),
      schedule_new_play exampleConfig 120000000000 fuel 417599000000000 true = some r ∧
        is_time_valid exampleConfig.schedule r = true :=
  C1_schedule_returns_valid exampleConfig (by decide) (by decide) (by decide) (by decide)
    (by decide) (by decide) 417599000000000 120000000000 (by decide)

/-- C2: at the failing input lower_bound = upper_bound = 0 the current
time Friday 19:59:59 is inside the window and is its own anchor, yet
schedule_new_play produces no timestamp: gen_range receives the empty
half-open range 0.0..0.0 and panics, instead of drawing the offset 0 and
returning Friday 19:59:59 unchanged as the spec requires.  With any
non-empty range and a drawn offset of 0 the intended result does hold
(last conjunct). -/
theorem C2_empty_offset_range_panics :
    is_time_valid mondayFridayWindow 417599000000000 = true ∧
    find_last_valid_time mondayFridayWindow 417599000000000 = some 417599000000000 ∧
    schedule_new_play ⟨0, 0, mondayFridayWindow⟩ 0 5 417599000000000 true = none ∧
    schedule_new_play exampleConfig 0 5 417599000000000 true = some 417599000000000 := by
  decide

/-- C3: with the Monday-Friday 08:00-20:00 window and now = Friday
19:59:00, an offset of exactly 120 seconds gives the invalid candidate
Friday 20:01:00; the latest valid time at or before it is Friday 20:00:00
and the earliest valid time at or after it is Monday 08:00:00, so the
gap-elision loop lands on Monday 08:01:00 (the 60-second overshoot
carried past the snapped boundary), which is valid. -/
theorem C3_gap_elision_example :
    is_time_valid mondayFridayWindow 417660000000000 = false ∧
    find_last_valid_time mondayFridayWindow 417660000000000 = some 417600000000000 ∧
    find_next_valid_time mondayFridayWindow 417660000000000 = some 633600000000000 ∧
    schedule_new_play exampleConfig 120000000000 2 417540000000000 true
      = some 633660000000000 ∧
    is_time_valid mondayFridayWindow 633660000000000 = true := by
  decide

/-- C4: for every timestamp and every window whose weekday list is
non-empty (and holds real weekdays, an invariant of the chrono Weekday
type) with 0 ≤ start_time ≤ end_time < one day (invariants of NaiveTime),
both snap functions return, and both results satisfy is_time_valid. -/
theorem C4_snap_results_valid (c : Schedule)
    (hne : c.weekdays ≠ [])
    (hwr : ∀ w ∈ c.weekdays, 0 ≤ w ∧ w < 7)
    (h0 : 0 ≤ c.start_time)
    (hse : c.start_time ≤ c.end_time)
    (hD : c.end_time < nsPerDay)
    (t : Int) :
    (∃ r, find_last_valid_time c t = some r ∧ is_time_valid c r = true) ∧
    (∃ r, find_next_valid_time c t = some r ∧ is_time_valid c r = true) := by
  have hw : ∃ w ∈ c.weekdays, 0 ≤ w ∧ w < 7 := by
    obtain ⟨w, hwmem⟩ := List.exists_mem_of_ne_nil _ hne
    exact ⟨w, hwmem, hwr w hwmem⟩
  exact ⟨flvt_valid_result c hw hse (by omega) hD t,
    fnvt_valid_result c hw hse h0 (by omega) t⟩

/-- C4 (witness): the snap functions land on valid points from Sunday
noon (day 6), which is outside the example window. -/
theorem C4_snap_results_valid_witness :
    (∃ r, find_last_valid_time mondayFridayWindow 561600000000000 = some r ∧
      is_time_valid mondayFridayWindow r = true) ∧
    (∃ r, find_next_valid_time mondayFridayWindow 561600000000000 = some r ∧
      is_time_valid mondayFridayWindow r = true) :=
  C4_snap_results_valid mondayFridayWindow (by decide) (by decide) (by decide) (by decide)
    (by decide) 561600000000000

/-- C5 (as stated, refuted): the claim also covers an unreadable
configuration file, but wake calls .unwrap() on the result of
std::fs::read_to_string("config.toml"), so an unreadable file panics the
process (modelled as none) instead of being logged and recovered. -/
theorem C5_counterexample :
    wake exampleConfig .unreadable (.ok 417599000000000) 417599000000000 0 5 true = none := by
  decide

/-- C5 (amended): a malformed (parse-failing) configuration never crashes
the wake pass: the pass returns normally, the in-memory configuration
remains the previous one, nothing is played, nothing is persisted, and
the countdown is not reset. -/
theorem C5_malformed_config_recovered (oldConfig : BaseConfig) (np : NpRead)
    (now offset : Int) (fuel : Nat) (writeOk : Bool) :
    wake oldConfig .malformed np now offset fuel writeOk
      = some ⟨oldConfig, false, none, none⟩ := rfl

/-- C6: at the failing input (a due persisted time, the window open, the
next-play write failing) the wake pass aborts: schedule_new_play calls
.unwrap() on std::fs::write("next-play", ..), so the pass panics
(modelled as none) before resetting the in-memory countdown, instead of
logging and keeping the countdown running.  The last conjunct shows the
same pass with a succeeding write: it plays, persists and resets the
countdown. -/
theorem C6_write_failure_aborts_pass :
    schedule_new_play exampleConfig 0 5 417599000000000 false = none ∧
    wake exampleConfig (.ok exampleConfig) (.ok 0) 417599000000000 0 5 false = none ∧
    wake exampleConfig (.ok exampleConfig) (.ok 0) 417599000000000 0 5 true
      = some ⟨exampleConfig, true, some 417599000000000, some 417599000000000⟩ := by
  decide

/-- C7 (as stated, refuted): on the degenerate configuration with an
empty weekday list, the day-stepping search of find_last_valid_time
rejects every day forever (none models the never-returning loop), and the
scheduling pass never surfaces any result: there is no iteration cap and
no hard error. -/
theorem C7_counterexample :
    find_last_valid_time ⟨[], 0, 86399999999999⟩ 12345 = none ∧
    schedule_new_play ⟨0, 200, ⟨[], 0, 86399999999999⟩⟩ 5 9 12345 true = none := by
  decide

/-- C7 (amended): the search loops of the scheduling pass have no
iteration cap and surface no error: with an empty allowedWeekdays list,
find_last_valid_time never returns for any input and any fuel given to
the day-stepping loop is exhausted, so schedule_new_play never produces a
result either - the pass hangs silently instead of failing loudly. -/
theorem C7_empty_weekdays_loops_forever (st et offset now : Int) (l u : Nat)
    (fuel : Nat) (t : Int) :
    find_last_valid_time ⟨[], st, et⟩ t = none ∧
      schedule_new_play ⟨l, u, ⟨[], st, et⟩⟩ offset fuel now true = none := by
  have hinv : ∀ x : Int, is_time_valid ⟨[], st, et⟩ x = false := by
    intro x
    simp [is_time_valid]
  have hflvt : ∀ x : Int, find_last_valid_time ⟨[], st, et⟩ x = none := by
    intro x
    rw [flvt_eq_invalid _ x (hinv x), stepBackDays_nil]
  refine ⟨hflvt t, ?_⟩
  by_cases h : l < u
  · simp [schedule_new_play, h, hflvt]
  · simp [schedule_new_play, h]

/-- C8 (as stated, refuted): with a persisted next-fire time exactly
equal to the current time (Friday 19:59:59, inside the window, so the
fire branch would play and persist), the wake pass does not fire: the
source tests diff < 0 strictly, so at equality it takes the wait branch -
nothing is played, nothing is persisted, and the countdown is reset to
the persisted time itself. -/
theorem C8_counterexample :
    wake exampleConfig (.ok exampleConfig) (.ok 417599000000000) 417599000000000 0 5 true
      = some ⟨exampleConfig, false, none, some 417599000000000⟩ ∧
    is_time_valid mondayFridayWindow 417599000000000 = true := by
  decide

/-- C8 (amended): a readable persisted next-fire time is treated as due
exactly when it is strictly before the current time: when now ≤ nextPlay
(equality included) the pass only resets the countdown to fire at
nextPlay, and only when nextPlay < now does it take the fire/reschedule
branch (playing exactly when the current time is valid). -/
theorem C8_due_iff_strictly_past (oldConfig c : BaseConfig) (np now offset : Int)
    (fuel : Nat) (writeOk : Bool) :
    (now ≤ np →
      wake oldConfig (.ok c) (.ok np) now offset fuel writeOk
        = some ⟨c, false, none, some np⟩) ∧
    (np < now →
      wake oldConfig (.ok c) (.ok np) now offset fuel writeOk
        = (schedule_new_play c offset fuel now writeOk).map
            (fun t => ⟨c, is_time_valid c.schedule now, some t, some (max now t)⟩)) := by
  constructor
  · intro h
    simp only [wake]
    rw [if_neg (by omega)]
  · intro h
    simp only [wake]
    rw [if_pos (by omega)]

/-- C8 (witness): the amended theorem at nextPlay = 5, now = 3 (wait
branch) and nextPlay = 2, now = 3 (fire branch). -/
theorem C8_due_iff_strictly_past_witness :
    wake exampleConfig (.ok exampleConfig) (.ok 5) 3 0 4 true
      = some ⟨exampleConfig, false, none, some 5⟩ ∧
    wake exampleConfig (.ok exampleConfig) (.ok 2) 3 0 4 true
      = (schedule_new_play exampleConfig 0 4 3 true).map
          (fun t => ⟨exampleConfig, is_time_valid exampleConfig.schedule 3, some t,
            some (max 3 t)⟩) :=
  ⟨(C8_due_iff_strictly_past exampleConfig exampleConfig 5 3 0 4 true).1 (by norm_num),
   (C8_due_iff_strictly_past exampleConfig exampleConfig 2 3 0 4 true).2 (by norm_num)⟩

/-- C9: for every window whose weekday list is non-empty (holding real
weekdays, an invariant of the chrono Weekday type), both snap functions
terminate on every input: the day-stepping loop reaches an allowed
weekday within at most seven steps, whatever the start and end times. -/
theorem C9_snap_search_terminates (c : Schedule)
    (hne : c.weekdays ≠ [])
    (hwr : ∀ w ∈ c.weekdays, 0 ≤ w ∧ w < 7)
    (t : Int) :
    (find_last_valid_time c t).isSome ∧ (find_next_valid_time c t).isSome := by
  have hw : ∃ w ∈ c.weekdays, 0 ≤ w ∧ w < 7 := by
    obtain ⟨w, hwmem⟩ := List.exists_mem_of_ne_nil _ hne
    exact ⟨w, hwmem, hwr w hwmem⟩
  constructor
  · by_cases hv : is_time_valid c t = true
    · rw [flvt_eq_valid c t hv]
      rfl
    · rw [Bool.not_eq_true] at hv
      rw [flvt_eq_invalid c t hv]
      obtain ⟨t2, hsb⟩ := Option.isSome_iff_exists.mp
        (stepBackDays_isSome c 7 (if timeOfDay t < c.start_time then t - nsPerDay else t)
          (weekday_hit_back c hw _))
      rw [hsb]
      rfl
  · by_cases hv : is_time_valid c t = true
    · rw [fnvt_eq_valid c t hv]
      rfl
    · rw [Bool.not_eq_true] at hv
      rw [fnvt_eq_invalid c t hv]
      obtain ⟨t2, hsb⟩ := Option.isSome_iff_exists.mp
        (stepForwardDays_isSome c 7 (if c.end_time < timeOfDay t then t + nsPerDay else t)
          (weekday_hit_forward c hw _))
      rw [hsb]
      rfl

/-- C9 (witness): both snap functions terminate on the example window
from Sunday noon, which is outside the window. -/
theorem C9_snap_search_terminates_witness :
    (find_last_valid_time mondayFridayWindow 561600000000000).isSome ∧
      (find_next_valid_time mondayFridayWindow 561600000000000).isSome :=
  C9_snap_search_terminates mondayFridayWindow (by decide) (by decide) 561600000000000

/-- C10: a wake pass whose configuration parse fails changes nothing and
reads nothing else: its outcome is independent of the persisted next-play
record, the current time, the drawn offset and the write outcome
(first conjunct), the previous configuration is kept, nothing is played,
the next-play record is not written, and the countdown is not reset
(second conjunct). -/
theorem C10_malformed_config_frame (oldConfig : BaseConfig) (np np' : NpRead)
    (now now' offset offset' : Int) (fuel fuel' : Nat) (writeOk writeOk' : Bool) :
    wake oldConfig .malformed np now offset fuel writeOk
        = wake oldConfig .malformed np' now' offset' fuel' writeOk' ∧
      wake oldConfig .malformed np now offset fuel writeOk
        = some ⟨oldConfig, false, none, none⟩ :=
  ⟨rfl, rfl⟩

end RandomSpeaker
